import Mathlib

/-!
Verification of `interview.c`: `atoi`, `strcpy`, `ARRAY_SIZE`, their
self-tests and the test runner.

A shallow embedding of `src/interview.c` and the properties stated for it.

Two views of `atoi` are given.

* The sequence view: a C string is the list of characters found from the
  pointer onwards; the scan ends at the first `'\0'` of the list, or at the
  end of the list, where the terminator sits. `none` is the null pointer.
* The memory view: memory is a map from addresses to characters, a pointer is
  an address (`0` is null), and the loop runs on fuel. The memory is threaded
  through the call, and two ghost fields record which addresses were
  dereferenced and at which addresses the loop body ran.

`strcpy` and `test_strcpy` live in the memory view, where assignments through
a pointer change the memory. `test_atoi` calls the sequence view on the
contents of its arrays. The runner prints into a string.

`int` is 32 bits wide; every arithmetic result is reduced into
`[-2^31, 2^31 - 1]` by `wrap32`.
-/

namespace Interview

/-! ## Native `int` arithmetic -/

/-- Smallest value of a 32-bit `int`. -/
def INT_MIN : Int := -2147483648

/-- Largest value of a 32-bit `int`. -/
def INT_MAX : Int := 2147483647

/-- Reduction of a mathematical integer modulo `2^32` into the signed range
`[-2^31, 2^31 - 1]`: the value a 32-bit two's complement `int` holds. -/
def wrap32 (x : Int) : Int := (x + 2147483648) % 4294967296 - 2147483648

/-! ## The sequence view -/

/-- The `case '0': ... case '9':` labels of the `switch (*str)`. -/
def isDigitCase (c : Char) : Bool :=
  c == '0' || c == '1' || c == '2' || c == '3' || c == '4' ||
  c == '5' || c == '6' || c == '7' || c == '8' || c == '9'

/-- The expression `*str - '0'`, computed in `int`. -/
def digitOf (c : Char) : Int := (c.toNat : Int) - ('0'.toNat : Int)

/-- The body of a digit case: `val *= 10; val += *str - '0';`. -/
def accumulate (val : Int) (c : Char) : Int :=
  wrap32 (wrap32 (val * 10) + digitOf c)

/-- The loop `while (*str) { switch (*str) { ... } str++; }` (lines 126-143),
started with accumulator `val` on the characters from `str` onwards. -/
def atoiLoop : List Char → Int → Int
  | [], val => val
  | c :: cs, val =>
    if c = '\x00' then val
    else if isDigitCase c then atoiLoop cs (accumulate val c)
    else atoiLoop cs val

/-- The character `*str` of the sequence view: the head of the list, or the
terminator when the list is used up. -/
def deref : List Char → Char
  | [] => '\x00'
  | c :: _ => c

/-- The function `atoi` (lines 113-146). `none` is the null pointer. -/
def atoi : Option (List Char) → Int
  | none => 0
  | some str =>
    let neg : Int := if deref str = '-' then -1 else 1
    let str := if deref str = '-' then str.tail else str
    wrap32 (neg * atoiLoop str 0)

/-! ## The memory view -/

/-- Machine state: the character memory, and a ghost log of the addresses
that were dereferenced, oldest first. -/
structure Machine where
  mem : Nat → Char
  reads : List Nat

/-- A dereference `*p`: the character at `p`, and the state with the read
logged. The only memory access `atoi` makes. -/
def load (σ : Machine) (p : Nat) : Char × Machine :=
  (σ.mem p, { σ with reads := σ.reads ++ [p] })

/-- What a call leaves behind: the returned `int`, the addresses at which the
loop body ran (ghost, in order), and the machine state after the call. -/
structure Outcome where
  ret : Int
  visited : List Nat
  final : Machine

/-- The loop of lines 126-143 on the machine. One unit of fuel pays for one
evaluation of the loop condition; `none` means the fuel ran out. -/
def scanLoop : Nat → Machine → Nat → Int → List Nat → Option Outcome
  | 0, _, _, _, _ => none
  | fuel + 1, σ, str, val, visited =>
    let c0 := load σ str
    if c0.1 = '\x00' then some ⟨val, visited, c0.2⟩
    else
      let c1 := load c0.2 str
      if isDigitCase c1.1 then
        let c2 := load c1.2 str
        scanLoop fuel c2.2 (str + 1) (accumulate val c2.1) (visited ++ [str])
      else
        scanLoop fuel c1.2 (str + 1) val (visited ++ [str])

/-- The function `atoi` on the machine; the pointer `0` is null. -/
def atoiMem (fuel : Nat) (σ : Machine) (str : Nat) : Option Outcome :=
  if str = 0 then some ⟨0, [], σ⟩
  else
    let c := load σ str
    let neg : Int := if c.1 = '-' then -1 else 1
    let str := if c.1 = '-' then str + 1 else str
    match scanLoop fuel c.2 str 0 [] with
    | none => none
    | some r => some ⟨wrap32 (neg * r.ret), r.visited, r.final⟩

/-- The memory `m` holds the terminated sequence `s` at address `p`: the
characters of `s`, none of them `'\0'`, then the terminator. -/
def CStrAt (m : Nat → Char) : Nat → List Char → Prop
  | p, [] => m p = '\x00'
  | p, c :: cs => c ≠ '\x00' ∧ m p = c ∧ CStrAt m (p + 1) cs

/-! ## Vocabulary of the specification -/

/-- The decimal digits occurring in `s`, in order, as numbers. -/
def digitsOf (s : List Char) : List Nat :=
  (s.filter isDigitCase).map (fun c => c.toNat - 48)

/-- The natural number spelled in base 10 by the digit characters of `s` in
order, `0` when there are none. -/
def digitsValue (s : List Char) : Nat := Nat.ofDigits 10 (digitsOf s).reverse

/-- The sign the specification reads off `s`: `-1` when the first character
is `'-'`, `+1` otherwise. -/
def sgn (s : List Char) : Int := if s.head? = some '-' then -1 else 1

/-- The sequence `s` is an optional single leading `'-'` followed only by
decimal digit characters. -/
def isSignedDecimal (s : List Char) : Bool :=
  if s.head? = some '-' then s.tail.all isDigitCase else s.all isDigitCase

/-- The signed value a signed decimal sequence denotes. -/
def signedValue (s : List Char) : Int :=
  if s.head? = some '-' then -(digitsValue s.tail : Int) else (digitsValue s : Int)

/-- The sequence `s` with every non-digit character removed, except a `'-'`
in first position. -/
def stripNonDigits : List Char → List Char
  | [] => []
  | c :: cs => if c = '-' then c :: cs.filter isDigitCase else (c :: cs).filter isDigitCase

/-- The longest prefix of `s` made of an optional leading `'-'` followed by
decimal digits. -/
def leadingNumeral : List Char → List Char
  | [] => []
  | c :: cs => if c = '-' then c :: cs.takeWhile isDigitCase else (c :: cs).takeWhile isDigitCase

/-- What follows `leadingNumeral s` in `s`: the characters from the first
non-digit on. -/
def afterNumeral : List Char → List Char
  | [] => []
  | c :: cs => if c = '-' then cs.dropWhile isDigitCase else (c :: cs).dropWhile isDigitCase

/-- The number of characters the sign test consumes before the loop starts:
`1` for a leading `'-'`, `0` otherwise. -/
def signWidth (s : List Char) : Nat := if s.head? = some '-' then 1 else 0

/-- A small memory for examples: the characters of `s` stored from address
`base` on, `'\0'` everywhere else. -/
def memOf (base : Nat) (s : List Char) : Nat → Char :=
  fun a => if base ≤ a then s.getD (a - base) '\x00' else '\x00'

/-- The value of `val` when the loop of `atoi` ends, before the sign is
applied: the magnitude accumulated for `str`. -/
def atoiVal (str : List Char) : Int :=
  let str := if deref str = '-' then str.tail else str
  atoiLoop str 0

/-- The mathematical results, before reduction into `int`, of the arithmetic
the loop performs, in order: for each digit character `val * 10`, then
`val + (*str - '0')` on the updated `val`. -/
def atoiLoopOps : List Char → Int → List Int
  | [], _ => []
  | c :: cs, val =>
    if c = '\x00' then []
    else if isDigitCase c then
      (val * 10) :: (wrap32 (val * 10) + digitOf c) :: atoiLoopOps cs (accumulate val c)
    else atoiLoopOps cs val

/-- The mathematical results of all the arithmetic of a call of `atoi` on a
non-null `str`: the steps of the loop, then the product `neg * val`. -/
def atoiOps (str : List Char) : List Int :=
  let neg : Int := if deref str = '-' then -1 else 1
  let str := if deref str = '-' then str.tail else str
  atoiLoopOps str 0 ++ [neg * atoiLoop str 0]

/-! ## `strcpy` on the machine -/

/-- An assignment `*p = c`: the state with the character at `p` replaced. -/
def store (σ : Machine) (p : Nat) (c : Char) : Machine :=
  { σ with mem := fun a => if a = p then c else σ.mem a }

/-- The loop `while (*dst++ = *src++);` (line 74). One unit of fuel pays for
one evaluation of the loop condition, which copies one character; `none`
means the fuel ran out. -/
def strcpyLoop : Nat → Machine → Nat → Nat → Option Machine
  | 0, _, _, _ => none
  | fuel + 1, σ, dst, src =>
    let c := load σ src
    let σ1 := store c.2 dst c.1
    if c.1 = '\x00' then some σ1
    else strcpyLoop fuel σ1 (dst + 1) (src + 1)

/-- The function `strcpy` (lines 69-77): the returned pointer and the state
after the call. -/
def strcpy (fuel : Nat) (σ : Machine) (dst src : Nat) : Option (Nat × Machine) :=
  let ret := dst
  match strcpyLoop fuel σ dst src with
  | none => none
  | some σ1 => some (ret, σ1)

/-! ## `ARRAY_SIZE` -/

/-- The expression `sizeof(a)/sizeof(*a)` of the macro `ARRAY_SIZE` (line 98),
on the two sizes in bytes. -/
def ARRAY_SIZE (sizeofA sizeofElem : Nat) : Nat := sizeofA / sizeofElem

/-- The size in bytes of an `int`. -/
def sizeofInt : Nat := 4

/-! ## The self-tests -/

/-- The contents of a `char[16]` initialised from the string literal `s`: the
characters of `s`, then zeros up to sixteen. -/
def charArray16 (s : List Char) : List Char := s ++ List.replicate (16 - s.length) '\x00'

/-- The initialisers of the array `tests` of `test_strcpy` (lines 172-189):
`test_str_in` and `test_str_out` of each case. -/
def test_strcpy_tests : List (List Char × List Char) :=
  [ ([], ['x', 'x', 'x', 'x', 'x', 'x', 'x']),
    (['1', '2', '3'], ['x', 'x', 'x', 'x', 'x', 'x', 'x']),
    ([], []),
    (['1', '2', '3'], []) ]

/-- The bytes of the array `tests` of `test_strcpy` as it is laid out in
memory: per element `test_str_in[16]`, then `test_str_out[16]`. -/
def test_strcpy_image : List Char :=
  test_strcpy_tests.flatMap (fun t => charArray16 t.1 ++ charArray16 t.2)

/-- The state after the bytes of `l` are written from address `p` on. -/
def storeList (σ : Machine) : Nat → List Char → Machine
  | _, [] => σ
  | p, c :: cs => storeList (store σ p c) (p + 1) cs

/-- The loop `while (in[j] != '\0' && out[j] == in[j]) j++;` (lines 202-204)
on the memory `m`; the result is the final `j`. -/
def compareLoop : Nat → (Nat → Char) → Nat → Nat → Nat → Option Nat
  | 0, _, _, _, _ => none
  | fuel + 1, m, inp, out, j =>
    if m (inp + j) ≠ '\x00' ∧ m (out + j) = m (inp + j) then compareLoop fuel m inp out (j + 1)
    else some j

/-- The `for` loop of `test_strcpy` (lines 193-210) over the indices still to
run, with the array `tests` at address `base` and elements of 32 bytes. -/
def test_strcpy_from (fuel base : Nat) : List Nat → Machine → Option Int
  | [], _ => some 1
  | i :: is, σ =>
    let test_str_in := base + 32 * i
    let test_str_out := base + 32 * i + 16
    match strcpy fuel σ test_str_out test_str_in with
    | none => none
    | some r =>
      if r.1 ≠ test_str_out then some 0
      else
        match compareLoop fuel r.2.mem test_str_in test_str_out 0 with
        | none => none
        | some j =>
          if r.2.mem (test_str_out + j) ≠ '\x00' then some 0
          else test_strcpy_from fuel base is r.2

/-- The function `test_strcpy` (lines 167-211), run from the state `σ` with
its local array placed at address `base`. -/
def test_strcpy (fuel : Nat) (σ : Machine) (base : Nat) : Option Int :=
  test_strcpy_from fuel base (List.range (ARRAY_SIZE (4 * 32) 32))
    (storeList σ base test_strcpy_image)

/-- The function `test_array_size` (lines 223-235): `a` has no element, `b`
has three. -/
def test_array_size : Int :=
  if ARRAY_SIZE (0 * sizeofInt) sizeofInt ≠ 0 then 0
  else if ARRAY_SIZE (3 * sizeofInt) sizeofInt ≠ 3 then 0
  else 1

/-- The initialisers of the array `tests` of `test_atoi` (lines 255-268):
`num_str[16]` and `num` of each case. -/
def test_atoi_tests : List (List Char × Int) :=
  [ (charArray16 [], 0), (charArray16 ['3'], 3), (charArray16 ['-', '3', '0'], -30) ]

/-- The `for` loop of `test_atoi` (lines 275-280) over the indices still to
run. -/
def test_atoi_from : List Nat → Int
  | [] => 1
  | i :: is =>
    if atoi (some (test_atoi_tests.getD i ([], 0)).1) ≠ (test_atoi_tests.getD i ([], 0)).2 then 0
    else test_atoi_from is

/-- The function `test_atoi` (lines 250-281); an element of its array takes
`16 + sizeofInt` bytes. -/
def test_atoi : Int :=
  if atoi none ≠ 0 then 0
  else test_atoi_from (List.range (ARRAY_SIZE (3 * (16 + sizeofInt)) (16 + sizeofInt)))

/-! ## The test runner -/

/-- A test descriptor (lines 283-286). A test function is run with fuel, a
machine state and the address of its stack frame; `none` means the fuel ran
out. -/
structure test where
  test_func : Nat → Machine → Nat → Option Int
  test_desc : String

/-- The registry `tests` (lines 286-290). -/
def tests : List test :=
  [ ⟨test_strcpy, "Test strcpy"⟩,
    ⟨fun _ _ _ => some test_array_size, "Test ARRAY_SIZE"⟩,
    ⟨fun _ _ _ => some test_atoi, "Test atoi"⟩ ]

/-- The label chosen by `switch (ret)` (lines 298-308). -/
def label (ret : Int) : String :=
  if ret = 0 then "FAILED"
  else if ret = 1 then "PASSED"
  else "UNEXPE"

/-- The `for` loop of `main` (lines 296-311) over the descriptors still to
run; `out` is what has been printed so far. -/
def mainLoop (fuel : Nat) (σ : Machine) (base : Nat) : List test → String → Option String
  | [], out => some out
  | t :: ts, out =>
    match t.test_func fuel σ base with
    | none => none
    | some ret => mainLoop fuel σ base ts (out ++ label ret ++ ": " ++ t.test_desc ++ "\n")

/-- The function `main` (lines 292-314) over a given registry: what is
printed, and the exit code. -/
def mainWith (registry : List test) (fuel : Nat) (σ : Machine) (base : Nat) :
    Option (String × Int) :=
  match mainLoop fuel σ base registry "" with
  | none => none
  | some out => some (out, 0)

/-- The function `main` on the registry `tests`. -/
def main (fuel : Nat) (σ : Machine) (base : Nat) : Option (String × Int) :=
  mainWith tests fuel σ base

/-- The line the specification expects for a test that returned `ret` and is
named `desc`. -/
def reportLine (ret : Int) (desc : String) : String :=
  (if ret = 0 then "FAILED" else if ret = 1 then "PASSED" else "UNEXPE") ++ ": " ++ desc ++ "\n"

/-- The output the specification expects for the given results and names, in
order. -/
def report : List (Int × String) → String
  | [] => ""
  | p :: ps => reportLine p.1 p.2 ++ report ps

/-! ## Facts about `wrap32` -/

theorem wrap32_of_range (x : Int) (hlo : INT_MIN ≤ x) (hhi : x ≤ INT_MAX) : wrap32 x = x := by
  unfold INT_MIN at hlo
  unfold INT_MAX at hhi
  unfold wrap32
  omega

theorem wrap32_range (x : Int) : INT_MIN ≤ wrap32 x ∧ wrap32 x ≤ INT_MAX := by
  unfold INT_MIN INT_MAX wrap32
  omega

theorem wrap32_idem (x : Int) : wrap32 (wrap32 x) = wrap32 x := by
  unfold wrap32
  omega

theorem wrap32_step (a d : Int) : wrap32 (wrap32 (wrap32 a * 10) + d) = wrap32 (a * 10 + d) := by
  unfold wrap32
  omega

theorem wrap32_neg_one_mul (a : Int) : wrap32 (-1 * wrap32 a) = wrap32 (-a) := by
  unfold wrap32
  omega

theorem wrap32_one_mul (a : Int) : wrap32 (1 * wrap32 a) = wrap32 a := by
  unfold wrap32
  omega

/-! ## Facts about the digit cases -/

theorem isDigitCase_bounds (c : Char) (h : isDigitCase c = true) :
    48 ≤ c.toNat ∧ c.toNat ≤ 57 := by
  simp only [isDigitCase, Bool.or_eq_true, beq_iff_eq] at h
  rcases h with ((((((((h | h) | h) | h) | h) | h) | h) | h) | h) | h <;> subst h <;> decide

theorem digitOf_eq (c : Char) (h : isDigitCase c = true) :
    digitOf c = ((c.toNat - 48 : Nat) : Int) := by
  have hb := isDigitCase_bounds c h
  have h0 : '0'.toNat = 48 := by decide
  unfold digitOf
  rw [h0]
  omega

theorem isDigitCase_nul : isDigitCase '\x00' = false := by decide

theorem isDigitCase_minus : isDigitCase '-' = false := by decide

theorem isDigitCase_plus : isDigitCase '+' = false := by decide

theorem ne_nul_of_isDigitCase (c : Char) (h : isDigitCase c = true) : c ≠ '\x00' := by
  intro hc
  rw [hc, isDigitCase_nul] at h
  exact Bool.noConfusion h

/-! ## Facts about the loop of the sequence view -/

theorem atoiLoop_nil (v : Int) : atoiLoop [] v = v := rfl

theorem atoiLoop_cons_digit (c : Char) (cs : List Char) (v : Int) (h : isDigitCase c = true) :
    atoiLoop (c :: cs) v = atoiLoop cs (accumulate v c) := by
  have hc := ne_nul_of_isDigitCase c h
  simp [atoiLoop, hc, h]

theorem atoiLoop_cons_skip (c : Char) (cs : List Char) (v : Int) (hc : c ≠ '\x00')
    (h : isDigitCase c = false) : atoiLoop (c :: cs) v = atoiLoop cs v := by
  simp [atoiLoop, hc, h]

/-- A sequence without digit characters leaves the accumulator as it was,
whether or not it holds a terminator. -/
theorem atoiLoop_no_digit (s : List Char) (v : Int)
    (h : ∀ c ∈ s, isDigitCase c = false) : atoiLoop s v = v := by
  induction s with
  | nil => rfl
  | cons c cs ih =>
    have hc : isDigitCase c = false := h c (List.mem_cons_self c cs)
    have hcs : ∀ d ∈ cs, isDigitCase d = false := fun d hd => h d (List.mem_cons_of_mem c hd)
    by_cases h0 : c = '\x00'
    · simp [atoiLoop, h0]
    · rw [atoiLoop_cons_skip c cs v h0 hc]
      exact ih hcs

/-- The accumulator is always a value of `int`. -/
theorem atoiLoop_range (s : List Char) (v : Int) (hlo : INT_MIN ≤ v) (hhi : v ≤ INT_MAX) :
    INT_MIN ≤ atoiLoop s v ∧ atoiLoop s v ≤ INT_MAX := by
  induction s generalizing v with
  | nil => exact ⟨hlo, hhi⟩
  | cons c cs ih =>
    by_cases h0 : c = '\x00'
    · simp [atoiLoop, h0, hlo, hhi]
    · by_cases hd : isDigitCase c = true
      · rw [atoiLoop_cons_digit c cs v hd]
        exact ih _ (wrap32_range _).1 (wrap32_range _).2
      · have hd2 : isDigitCase c = false := by simpa using hd
        rw [atoiLoop_cons_skip c cs v h0 hd2]
        exact ih v hlo hhi

/-- Removing the non-digit characters of a terminated sequence does not
change what the loop computes. -/
theorem atoiLoop_filter (s : List Char) (v : Int) (hs : '\x00' ∉ s) :
    atoiLoop (s.filter isDigitCase) v = atoiLoop s v := by
  induction s generalizing v with
  | nil => rfl
  | cons c cs ih =>
    have h0 : c ≠ '\x00' := fun h => hs (h ▸ List.mem_cons_self c cs)
    have hcs : '\x00' ∉ cs := fun h => hs (List.mem_cons_of_mem c h)
    by_cases hd : isDigitCase c = true
    · rw [List.filter_cons_of_pos hd, atoiLoop_cons_digit c _ v hd,
        atoiLoop_cons_digit c cs v hd]
      exact ih _ hcs
    · have hd2 : isDigitCase c = false := by simpa using hd
      rw [List.filter_cons_of_neg hd, atoiLoop_cons_skip c cs v h0 hd2]
      exact ih v hcs

/-- Characters without a digit among them, appended to a sequence, do not
change what the loop computes. -/
theorem atoiLoop_append_no_digit (p r : List Char) (v : Int)
    (hr : ∀ c ∈ r, isDigitCase c = false) : atoiLoop (p ++ r) v = atoiLoop p v := by
  induction p generalizing v with
  | nil => simpa using atoiLoop_no_digit r v hr
  | cons c cs ih =>
    by_cases h0 : c = '\x00'
    · simp [atoiLoop, h0]
    · by_cases hd : isDigitCase c = true
      · rw [List.cons_append, atoiLoop_cons_digit c _ v hd, atoiLoop_cons_digit c cs v hd]
        exact ih _
      · have hd2 : isDigitCase c = false := by simpa using hd
        rw [List.cons_append, atoiLoop_cons_skip c _ v h0 hd2, atoiLoop_cons_skip c cs v h0 hd2]
        exact ih v

/-! ## The loop computes the number its digits spell -/

theorem digitsOf_cons_digit (c : Char) (cs : List Char) (h : isDigitCase c = true) :
    digitsOf (c :: cs) = (c.toNat - 48) :: digitsOf cs := by
  simp [digitsOf, List.filter_cons_of_pos h]

theorem digitsOf_cons_skip (c : Char) (cs : List Char) (h : isDigitCase c = false) :
    digitsOf (c :: cs) = digitsOf cs := by
  simp [digitsOf, h]

theorem digitsValue_cons_digit (c : Char) (cs : List Char) (h : isDigitCase c = true) :
    digitsValue (c :: cs) = (c.toNat - 48) * 10 ^ (digitsOf cs).length + digitsValue cs := by
  unfold digitsValue
  rw [digitsOf_cons_digit c cs h, List.reverse_cons, Nat.ofDigits_append, Nat.ofDigits_singleton,
    List.length_reverse]
  ring

theorem digitsValue_cons_skip (c : Char) (cs : List Char) (h : isDigitCase c = false) :
    digitsValue (c :: cs) = digitsValue cs := by
  unfold digitsValue
  rw [digitsOf_cons_skip c cs h]

/-- Started on the accumulator `wrap32 n`, the loop over a terminated sequence
ends on `n` shifted by the digits of the sequence, reduced into `int`. -/
theorem atoiLoop_value (s : List Char) (hs : '\x00' ∉ s) (n : Int) :
    atoiLoop s (wrap32 n) = wrap32 (n * 10 ^ (digitsOf s).length + (digitsValue s : Int)) := by
  induction s generalizing n with
  | nil => simp [atoiLoop, digitsOf, digitsValue]
  | cons c cs ih =>
    have h0 : c ≠ '\x00' := fun h => hs (h ▸ List.mem_cons_self c cs)
    have hcs : '\x00' ∉ cs := fun h => hs (List.mem_cons_of_mem c h)
    by_cases hd : isDigitCase c = true
    · rw [atoiLoop_cons_digit c cs _ hd]
      unfold accumulate
      rw [wrap32_step, ih hcs, digitsValue_cons_digit c cs hd, digitsOf_cons_digit c cs hd,
        digitOf_eq c hd]
      congr 1
      simp only [List.length_cons]
      push_cast
      ring
    · have hd2 : isDigitCase c = false := by simpa using hd
      rw [atoiLoop_cons_skip c cs _ h0 hd2, ih hcs, digitsValue_cons_skip c cs hd2,
        digitsOf_cons_skip c cs hd2]

/-- From the accumulator `0`, the loop over a terminated sequence ends on the
number its digits spell, reduced into `int`. -/
theorem atoiLoop_zero (s : List Char) (hs : '\x00' ∉ s) :
    atoiLoop s 0 = wrap32 (digitsValue s : Int) := by
  have h := atoiLoop_value s hs 0
  have hz : wrap32 0 = 0 := by decide
  rw [hz] at h
  simpa using h

/-! ## Unfolding `atoi` -/

theorem atoi_minus (s : List Char) : atoi (some ('-' :: s)) = wrap32 (-1 * atoiLoop s 0) := by
  simp [atoi, deref]

theorem atoi_no_minus (s : List Char) (h : deref s ≠ '-') :
    atoi (some s) = wrap32 (1 * atoiLoop s 0) := by
  simp [atoi, h]

theorem atoiLoop_zero_range (s : List Char) :
    INT_MIN ≤ atoiLoop s 0 ∧ atoiLoop s 0 ≤ INT_MAX :=
  atoiLoop_range s 0 (by decide) (by decide)

/-- Without a leading `'-'`, `atoi` returns the accumulator as it stands. -/
theorem atoi_no_minus_eq (s : List Char) (h : deref s ≠ '-') :
    atoi (some s) = atoiLoop s 0 := by
  rw [atoi_no_minus s h, one_mul]
  exact wrap32_of_range _ (atoiLoop_zero_range s).1 (atoiLoop_zero_range s).2

theorem deref_eq_minus_iff (s : List Char) : deref s = '-' ↔ s.head? = some '-' := by
  cases s with
  | nil => simp [deref]
  | cons c cs => simp [deref]

theorem sgn_minus (s : List Char) : sgn ('-' :: s) = -1 := by
  simp [sgn]

theorem sgn_no_minus (s : List Char) (h : deref s ≠ '-') : sgn s = 1 := by
  have h2 : ¬ s.head? = some '-' := fun hh => h ((deref_eq_minus_iff s).2 hh)
  simp [sgn, h2]

/-- On a terminated sequence `atoi` returns the number spelled by the digits,
with the sign of the first character, reduced into `int`. -/
theorem atoi_value (s : List Char) (hs : '\x00' ∉ s) :
    atoi (some s) = wrap32 (sgn s * (digitsValue s : Int)) := by
  by_cases h : deref s = '-'
  · cases s with
    | nil => exact absurd h (by decide)
    | cons c cs =>
      have hc : c = '-' := h
      subst hc
      have hcs : '\x00' ∉ cs := fun hh => hs (List.mem_cons_of_mem _ hh)
      rw [atoi_minus, atoiLoop_zero cs hcs, wrap32_neg_one_mul, sgn_minus,
        digitsValue_cons_skip _ cs isDigitCase_minus]
      congr 1
      ring
  · rw [atoi_no_minus s h, atoiLoop_zero s hs, wrap32_one_mul, sgn_no_minus s h, one_mul]

theorem nul_not_mem_of_all_digits (s : List Char) (h : ∀ c ∈ s, isDigitCase c = true) :
    '\x00' ∉ s := fun hh => ne_nul_of_isDigitCase _ (h _ hh) rfl

theorem deref_ne_minus_of_all_digits (s : List Char) (h : ∀ c ∈ s, isDigitCase c = true) :
    deref s ≠ '-' := by
  cases s with
  | nil => decide
  | cons c cs =>
    intro hc
    have hd := h c (List.mem_cons_self c cs)
    have hc2 : c = '-' := hc
    rw [hc2, isDigitCase_minus] at hd
    exact Bool.noConfusion hd

theorem deref_filter_ne_minus (s : List Char) : deref (s.filter isDigitCase) ≠ '-' :=
  deref_ne_minus_of_all_digits _ (fun _ hc => (List.mem_filter.1 hc).2)

theorem deref_takeWhile_ne_minus (s : List Char) : deref (s.takeWhile isDigitCase) ≠ '-' :=
  deref_ne_minus_of_all_digits _ (fun _ hc => List.mem_takeWhile_imp hc)

/-- A non-digit character other than the terminator, anywhere in the
sequence, does not change what the loop computes. -/
theorem atoiLoop_drop_middle (a b : List Char) (c : Char) (v : Int) (hc : c ≠ '\x00')
    (hd : isDigitCase c = false) : atoiLoop (a ++ c :: b) v = atoiLoop (a ++ b) v := by
  induction a generalizing v with
  | nil => simpa using atoiLoop_cons_skip c b v hc hd
  | cons x xs ih =>
    by_cases h0 : x = '\x00'
    · simp [atoiLoop, h0]
    · by_cases hx : isDigitCase x = true
      · rw [List.cons_append, List.cons_append, atoiLoop_cons_digit x _ v hx,
          atoiLoop_cons_digit x _ v hx]
        exact ih _
      · have hx2 : isDigitCase x = false := by simpa using hx
        rw [List.cons_append, List.cons_append, atoiLoop_cons_skip x _ v h0 hx2,
          atoiLoop_cons_skip x _ v h0 hx2]
        exact ih v

/-! ## The machine runs the loop of the sequence view -/

theorem load_fst (σ : Machine) (p : Nat) : (load σ p).1 = σ.mem p := rfl

theorem load_mem (σ : Machine) (p : Nat) : (load σ p).2.mem = σ.mem := rfl

/-- On a memory holding the terminated sequence `s` at `str`, with more fuel
than `s` has characters, the loop returns what the sequence view computes,
having run its body once at each address of `s` in order, on an unchanged
memory. -/
theorem scanLoop_spec (s : List Char) :
    ∀ (fuel : Nat) (σ : Machine) (str : Nat) (val : Int) (visited : List Nat),
      CStrAt σ.mem str s → s.length < fuel →
      ∃ r, scanLoop fuel σ str val visited = some r ∧ r.ret = atoiLoop s val ∧
        r.visited = visited ++ List.range' str s.length ∧ r.final.mem = σ.mem := by
  induction s with
  | nil =>
    intro fuel σ str val visited h hf
    cases fuel with
    | zero => exact absurd hf (Nat.not_lt_zero _)
    | succ f =>
      have h0 : σ.mem str = '\x00' := h
      exact ⟨⟨val, visited, (load σ str).2⟩, by simp [scanLoop, load_fst, h0],
        rfl, by simp, rfl⟩
  | cons c cs ih =>
    intro fuel σ str val visited h hf
    obtain ⟨hc, hm, hrest⟩ := h
    cases fuel with
    | zero => exact absurd hf (Nat.not_lt_zero _)
    | succ f =>
      have hf2 : cs.length < f := by
        simp only [List.length_cons] at hf
        omega
      have hne : σ.mem str ≠ '\x00' := by rw [hm]; exact hc
      by_cases hd : isDigitCase c = true
      · have hd2 : isDigitCase (σ.mem str) = true := by rw [hm]; exact hd
        obtain ⟨r, hr, hret, hvis, hmem⟩ :=
          ih f (load (load (load σ str).2 str).2 str).2 (str + 1) (accumulate val c)
            (visited ++ [str]) hrest hf2
        refine ⟨r, ?_, ?_, ?_, hmem⟩
        · rw [← hr]
          simp [scanLoop, load_fst, load_mem, hm, hc, hd]
        · rw [hret, atoiLoop_cons_digit c cs val hd]
        · rw [hvis, List.length_cons, List.range'_succ]
          simp
      · have hd1 : isDigitCase c = false := by simpa using hd
        have hd2 : isDigitCase (σ.mem str) = false := by rw [hm]; exact hd1
        obtain ⟨r, hr, hret, hvis, hmem⟩ :=
          ih f (load (load σ str).2 str).2 (str + 1) val (visited ++ [str]) hrest hf2
        refine ⟨r, ?_, ?_, ?_, hmem⟩
        · rw [← hr]
          simp [scanLoop, load_fst, load_mem, hm, hc, hd1]
        · rw [hret, atoiLoop_cons_skip c cs val hc hd1]
        · rw [hvis, List.length_cons, List.range'_succ]
          simp

/-- On a memory holding the terminated sequence `s` at the non-null `str`,
with more fuel than `s` has characters, `atoiMem` returns what `atoi`
computes on `s`; the loop body runs once at each address after the optional
sign; the memory is unchanged. -/
theorem atoiMem_spec (fuel : Nat) (σ : Machine) (str : Nat) (s : List Char)
    (hp : str ≠ 0) (h : CStrAt σ.mem str s) (hf : s.length < fuel) :
    ∃ r, atoiMem fuel σ str = some r ∧ r.ret = atoi (some s) ∧
      r.visited = List.range' (str + signWidth s) (s.length - signWidth s) ∧
      r.final.mem = σ.mem := by
  by_cases hm : deref s = '-'
  · cases s with
    | nil => exact absurd hm (by decide)
    | cons c cs =>
      have hc : c = '-' := hm
      subst hc
      obtain ⟨_, hmem, hrest⟩ := h
      have hf2 : cs.length < fuel := by
        simp only [List.length_cons] at hf
        omega
      obtain ⟨r, hr, hret, hvis, hfin⟩ :=
        scanLoop_spec cs fuel (load σ str).2 (str + 1) 0 [] hrest hf2
      refine ⟨⟨wrap32 (-1 * r.ret), r.visited, r.final⟩, ?_, ?_, ?_, hfin⟩
      · simp [atoiMem, hp, load_fst, hmem, hr]
      · rw [atoi_minus, ← hret]
      · simp [hvis, signWidth]
  · have hm2 : σ.mem str ≠ '-' := by
      cases s with
      | nil =>
        have h0 : σ.mem str = '\x00' := h
        rw [h0]
        decide
      | cons c cs =>
        rw [h.2.1]
        exact hm
    have hw : signWidth s = 0 := by
      have h2 : ¬ s.head? = some '-' := fun hh => hm ((deref_eq_minus_iff s).2 hh)
      simp [signWidth, h2]
    obtain ⟨r, hr, hret, hvis, hfin⟩ := scanLoop_spec s fuel (load σ str).2 str 0 [] h hf
    refine ⟨⟨wrap32 (1 * r.ret), r.visited, r.final⟩, ?_, ?_, ?_, hfin⟩
    · simp [atoiMem, hp, load_fst, hm2, hr]
    · rw [atoi_no_minus s hm, ← hret]
    · simp [hvis, hw]

theorem CStrAt_memOf (base : Nat) (s : List Char) (hs : '\x00' ∉ s) :
    ∀ k, CStrAt (memOf base s) (base + k) (s.drop k) := by
  intro k
  generalize hd : s.drop k = t
  induction t generalizing k with
  | nil =>
    have hk : s.length ≤ k := List.drop_eq_nil_iff.1 hd
    simp [CStrAt, memOf, List.getElem?_eq_none hk]
  | cons c cs ih =>
    have hk : k < s.length := by
      by_contra hh
      have : s.drop k = [] := List.drop_eq_nil_iff.2 (by omega)
      rw [this] at hd
      exact List.noConfusion hd
    have hget : s.getD k '\x00' = c := by
      have h1 : s.drop k = s.get ⟨k, hk⟩ :: s.drop (k + 1) := List.drop_eq_getElem_cons hk
      rw [hd] at h1
      have h2 : c = s.get ⟨k, hk⟩ := (List.cons.inj h1).1
      rw [h2]
      simp [List.getElem?_eq_getElem hk]
    have hmem : c ∈ s := by
      have : c ∈ s.drop k := by rw [hd]; exact List.mem_cons_self c cs
      exact List.mem_of_mem_drop this
    have hrest : s.drop (k + 1) = cs := by
      have h1 : s.drop k = s.get ⟨k, hk⟩ :: s.drop (k + 1) := List.drop_eq_getElem_cons hk
      rw [hd] at h1
      exact ((List.cons.inj h1).2).symm
    refine ⟨fun h0 => hs (h0 ▸ hmem), ?_, ?_⟩
    · have hget2 : s[k]?.getD '\x00' = c := by simpa using hget
      simp [memOf, hget2]
    · have := ih (k + 1) hrest
      simpa [Nat.add_assoc] using this

/-- Every sequence without a terminator inside can be laid out in memory. -/
theorem CStrAt_memOf_base (base : Nat) (s : List Char) (hs : '\x00' ∉ s) :
    CStrAt (memOf base s) base s := by
  simpa using CStrAt_memOf base s hs 0

/-! ## The claims -/

/-- C1: for every terminated sequence `s` made of an optional single leading
`'-'` followed only by decimal digits (leading zeros allowed), whose denoted
signed value lies within `[INT_MIN, INT_MAX]`, `atoi s` is exactly that
value. -/
theorem atoi_exact_in_range (s : List Char) (hs : isSignedDecimal s = true)
    (hlo : INT_MIN ≤ signedValue s) (hhi : signedValue s ≤ INT_MAX) :
    atoi (some s) = signedValue s := by
  by_cases h : s.head? = some '-'
  · cases s with
    | nil => simp at h
    | cons c cs =>
      have hc : c = '-' := by simpa using h
      subst hc
      have hall : ∀ d ∈ cs, isDigitCase d = true := by
        simpa [isSignedDecimal] using hs
      have hv : signedValue ('-' :: cs) = -(digitsValue cs : Int) := by
        simp [signedValue]
      rw [hv] at hlo hhi ⊢
      rw [atoi_value _ (by simpa using nul_not_mem_of_all_digits cs hall), sgn_minus,
        digitsValue_cons_skip _ cs isDigitCase_minus]
      have e : (-1 : Int) * (digitsValue cs : Int) = -(digitsValue cs : Int) := by ring
      rw [e]
      exact wrap32_of_range _ hlo hhi
  · have hall : ∀ d ∈ s, isDigitCase d = true := by
      simpa [isSignedDecimal, h] using hs
    have hv : signedValue s = (digitsValue s : Int) := by
      simp [signedValue, h]
    rw [hv] at hlo hhi ⊢
    rw [atoi_value s (nul_not_mem_of_all_digits s hall),
      sgn_no_minus s (deref_ne_minus_of_all_digits s hall), one_mul]
    exact wrap32_of_range _ hlo hhi

/-- C1 at the inputs of `test_atoi`: `"-30"`, with `"3"` and `"0"` evaluated
alongside. -/
theorem atoi_exact_in_range_witness :
    isSignedDecimal ['-', '3', '0'] = true ∧
    INT_MIN ≤ signedValue ['-', '3', '0'] ∧ signedValue ['-', '3', '0'] ≤ INT_MAX ∧
    atoi (some ['-', '3', '0']) = signedValue ['-', '3', '0'] ∧
    signedValue ['-', '3', '0'] = -30 ∧
    atoi (some ['3']) = 3 ∧ atoi (some ['0']) = 0 :=
  ⟨by decide, by decide, by decide,
    atoi_exact_in_range ['-', '3', '0'] (by decide) (by decide) (by decide),
    by decide, by decide, by decide⟩

/-- C2: on a terminated sequence every non-digit character after the optional
leading `'-'` is skipped and the scan goes on to the terminator: `atoi s` is
`atoi` of `s` with every non-digit removed except a `'-'` in first
position. -/
theorem atoi_skips_non_digits (s : List Char) (hs : '\x00' ∉ s) :
    atoi (some s) = atoi (some (stripNonDigits s)) := by
  cases s with
  | nil => rfl
  | cons c cs =>
    have hcs : '\x00' ∉ cs := fun hh => hs (List.mem_cons_of_mem _ hh)
    by_cases hc : c = '-'
    · subst hc
      have e : stripNonDigits ('-' :: cs) = '-' :: cs.filter isDigitCase := by
        simp [stripNonDigits]
      rw [e, atoi_minus, atoi_minus, atoiLoop_filter cs 0 hcs]
    · have e : stripNonDigits (c :: cs) = (c :: cs).filter isDigitCase := by
        simp [stripNonDigits, hc]
      have hd : deref (c :: cs) ≠ '-' := hc
      rw [e, atoi_no_minus _ hd, atoi_no_minus _ (deref_filter_ne_minus (c :: cs)),
        atoiLoop_filter (c :: cs) 0 hs]

/-- C2 at `"1a2"`, which reads as `12`, with `"12 34"` read as `1234`. -/
theorem atoi_skips_non_digits_witness :
    '\x00' ∉ ['1', 'a', '2'] ∧
    atoi (some ['1', 'a', '2']) = atoi (some (stripNonDigits ['1', 'a', '2'])) ∧
    stripNonDigits ['1', 'a', '2'] = ['1', '2'] ∧
    atoi (some ['1', 'a', '2']) = 12 ∧
    atoi (some ['1', '2', ' ', '3', '4']) = 1234 :=
  ⟨by decide, atoi_skips_non_digits ['1', 'a', '2'] (by decide), by decide, by decide,
    by decide⟩

/-- C3, as stated, fails: on `"1a2"` the longest sign-and-digits prefix is
`"1"`, read as `1`, while `atoi` reads the whole sequence as `12`. -/
theorem atoi_stops_at_non_digit_counterexample :
    leadingNumeral ['1', 'a', '2'] = ['1'] ∧
    atoi (some (leadingNumeral ['1', 'a', '2'])) = 1 ∧
    atoi (some ['1', 'a', '2']) = 12 ∧
    atoi (some ['1', 'a', '2']) ≠ atoi (some (leadingNumeral ['1', 'a', '2'])) := by
  decide

/-- C3 (amended): when no decimal digit occurs after the first non-digit
character, `atoi s` equals `atoi` of the longest prefix of `s` made of the
optional leading `'-'` followed by digits. -/
theorem atoi_numeral_when_no_later_digit (s : List Char)
    (hr : ∀ c ∈ afterNumeral s, isDigitCase c = false) :
    atoi (some s) = atoi (some (leadingNumeral s)) := by
  cases s with
  | nil => rfl
  | cons c cs =>
    by_cases hc : c = '-'
    · subst hc
      have e1 : leadingNumeral ('-' :: cs) = '-' :: cs.takeWhile isDigitCase := by
        simp [leadingNumeral]
      have e2 : afterNumeral ('-' :: cs) = cs.dropWhile isDigitCase := by
        simp [afterNumeral]
      rw [e2] at hr
      rw [e1, atoi_minus, atoi_minus]
      conv_lhs => rw [← List.takeWhile_append_dropWhile isDigitCase cs]
      rw [atoiLoop_append_no_digit _ _ 0 hr]
    · have e1 : leadingNumeral (c :: cs) = (c :: cs).takeWhile isDigitCase := by
        simp [leadingNumeral, hc]
      have e2 : afterNumeral (c :: cs) = (c :: cs).dropWhile isDigitCase := by
        simp [afterNumeral, hc]
      rw [e2] at hr
      have hd : deref (c :: cs) ≠ '-' := hc
      rw [e1, atoi_no_minus _ hd, atoi_no_minus _ (deref_takeWhile_ne_minus (c :: cs))]
      conv_lhs => rw [← List.takeWhile_append_dropWhile isDigitCase (c :: cs)]
      rw [atoiLoop_append_no_digit _ _ 0 hr]

/-- C3 (amended) at `"-12ab"`, whose prefix `"-12"` reads as `-12`. -/
theorem atoi_numeral_when_no_later_digit_witness :
    (∀ c ∈ afterNumeral ['-', '1', '2', 'a', 'b'], isDigitCase c = false) ∧
    atoi (some ['-', '1', '2', 'a', 'b']) = atoi (some (leadingNumeral ['-', '1', '2', 'a', 'b'])) ∧
    leadingNumeral ['-', '1', '2', 'a', 'b'] = ['-', '1', '2'] ∧
    atoi (some ['-', '1', '2', 'a', 'b']) = -12 :=
  ⟨by decide, atoi_numeral_when_no_later_digit ['-', '1', '2', 'a', 'b'] (by decide),
    by decide, by decide⟩

/-- C4: on the null reference `atoi` returns `0`; on the machine it does so
for any fuel and any memory, with the state, read log included, left as it
was, so no character is read. -/
theorem atoi_null :
    atoi none = 0 ∧ ∀ (fuel : Nat) (σ : Machine), atoiMem fuel σ 0 = some ⟨0, [], σ⟩ :=
  ⟨rfl, fun _ _ => by simp [atoiMem]⟩

/-- C5: for every sequence `s` that holds no decimal digit character,
`atoi s` is `0`. -/
theorem atoi_no_digit (s : List Char) (h : ∀ c ∈ s, isDigitCase c = false) :
    atoi (some s) = 0 := by
  have hz : wrap32 0 = 0 := by decide
  by_cases hd : deref s = '-'
  · cases s with
    | nil => exact absurd hd (by decide)
    | cons c cs =>
      have hc : c = '-' := hd
      subst hc
      have hcs : ∀ d ∈ cs, isDigitCase d = false := fun d hd => h d (List.mem_cons_of_mem _ hd)
      rw [atoi_minus, atoiLoop_no_digit cs 0 hcs]
      exact hz
  · rw [atoi_no_minus s hd, atoiLoop_no_digit s 0 h]
    exact hz

/-- C5 at the lone minus sign, the empty sequence and `"+x"`. -/
theorem atoi_no_digit_witness :
    (∀ c ∈ ['-'], isDigitCase c = false) ∧ atoi (some ['-']) = 0 ∧
    atoi (some []) = 0 ∧ atoi (some ['+', 'x']) = 0 :=
  ⟨by decide, atoi_no_digit ['-'] (by decide), atoi_no_digit [] (by decide),
    atoi_no_digit ['+', 'x'] (by decide)⟩

/-- C6: only a `'-'` in first position sets the sign. When `s` does not start
with `'-'`, `atoi ("-" ++ s)` is the negation of `atoi s` in `int`
arithmetic; and a `'-'` after a non-empty `a` is skipped like any other
non-digit. -/
theorem atoi_sign_first_only (s a b : List Char) (hs : s.head? ≠ some '-') (ha : a ≠ []) :
    atoi (some ('-' :: s)) = wrap32 (-atoi (some s)) ∧
    atoi (some (a ++ '-' :: b)) = atoi (some (a ++ b)) := by
  constructor
  · have hd : deref s ≠ '-' := fun hh => hs ((deref_eq_minus_iff s).1 hh)
    rw [atoi_minus, atoi_no_minus_eq s hd]
    congr 1
    ring
  · cases a with
    | nil => exact absurd rfl ha
    | cons x xs =>
      by_cases hx : x = '-'
      · subst hx
        rw [List.cons_append, List.cons_append, atoi_minus, atoi_minus,
          atoiLoop_drop_middle xs b '-' 0 (by decide) isDigitCase_minus]
      · have h1 : deref (x :: xs ++ '-' :: b) ≠ '-' := hx
        have h2 : deref (x :: xs ++ b) ≠ '-' := hx
        rw [atoi_no_minus _ h1, atoi_no_minus _ h2,
          atoiLoop_drop_middle (x :: xs) b '-' 0 (by decide) isDigitCase_minus]

/-- C6 at `s = "30"` and at a `'-'` inside `"3-0"`. -/
theorem atoi_sign_first_only_witness :
    ['3', '0'].head? ≠ some '-' ∧ ['3'] ≠ [] ∧
    atoi (some ('-' :: ['3', '0'])) = wrap32 (-atoi (some ['3', '0'])) ∧
    atoi (some (['3'] ++ '-' :: ['0'])) = atoi (some (['3'] ++ ['0'])) ∧
    atoi (some ['-', '3', '0']) = -30 ∧ atoi (some ['3', '-', '0']) = 30 :=
  ⟨by decide, by decide,
    (atoi_sign_first_only ['3', '0'] ['3'] ['0'] (by decide) (by decide)).1,
    (atoi_sign_first_only ['3', '0'] ['3'] ['0'] (by decide) (by decide)).2,
    by decide, by decide⟩

/-- C7: `atoi` does not detect overflow and wraps. On a terminated sequence
`s`, with `N` the number spelled by its digit characters and `sgn` the sign of
its first character, `atoi s` is `sgn * N` reduced modulo `2^32` into
`[-2^31, 2^31 - 1]`: it lies in that range and differs from `sgn * N` by a
multiple of `2^32`. -/
theorem atoi_wraps (s : List Char) (hs : '\x00' ∉ s) :
    atoi (some s) = wrap32 (sgn s * (digitsValue s : Int)) ∧
    INT_MIN ≤ atoi (some s) ∧ atoi (some s) ≤ INT_MAX ∧
    (atoi (some s) - sgn s * (digitsValue s : Int)) % 4294967296 = 0 := by
  have h := atoi_value s hs
  refine ⟨h, ?_, ?_, ?_⟩
  · rw [h]
    exact (wrap32_range _).1
  · rw [h]
    exact (wrap32_range _).2
  · rw [h]
    generalize sgn s * (digitsValue s : Int) = x
    unfold wrap32
    omega

set_option maxRecDepth 100000 in
/-- C7 at `"4294967297"`, which spells `2^32 + 1` and reads as `1`, and at
`"-2147483649"`, which reads as `2147483647`. -/
theorem atoi_wraps_witness :
    '\x00' ∉ "4294967297".toList ∧
    (atoi (some "4294967297".toList) =
        wrap32 (sgn "4294967297".toList * (digitsValue "4294967297".toList : Int)) ∧
      INT_MIN ≤ atoi (some "4294967297".toList) ∧ atoi (some "4294967297".toList) ≤ INT_MAX ∧
      (atoi (some "4294967297".toList) -
        sgn "4294967297".toList * (digitsValue "4294967297".toList : Int)) % 4294967296 = 0) ∧
    digitsValue "4294967297".toList = 4294967297 ∧
    atoi (some "4294967297".toList) = 1 ∧
    atoi (some "-2147483649".toList) = 2147483647 :=
  ⟨by decide, atoi_wraps "4294967297".toList (by decide), by decide, by decide, by decide⟩

/-- C8: a leading `'+'` is no sign marker, it is skipped like any non-digit.
For a sequence `d` of digits `atoi ("+" ++ d)` is `atoi d`; for a terminated
sequence `s`, `atoi ("+" ++ s)` is the number spelled by the digits of `s`
taken with sign `+1`, whatever `'-'` occurs in `s`. -/
theorem atoi_plus_not_sign (d s : List Char) (hd : ∀ c ∈ d, isDigitCase c = true)
    (hs : '\x00' ∉ s) :
    atoi (some ('+' :: d)) = atoi (some d) ∧
    atoi (some ('+' :: s)) = wrap32 (1 * (digitsValue s : Int)) := by
  have hplus : ∀ t : List Char, deref ('+' :: t) ≠ '-' := fun _ hh =>
    absurd (show '+' = '-' from hh) (by decide)
  constructor
  · rw [atoi_no_minus_eq _ (hplus d), atoi_no_minus_eq d (deref_ne_minus_of_all_digits d hd),
      atoiLoop_cons_skip '+' d 0 (by decide) isDigitCase_plus]
  · have hs2 : '\x00' ∉ '+' :: s := by
      intro hh
      rcases List.mem_cons.1 hh with h1 | h1
      · exact absurd h1 (by decide)
      · exact hs h1
    rw [atoi_value _ hs2, sgn_no_minus _ (hplus s),
      digitsValue_cons_skip '+' s isDigitCase_plus]

/-- C8 at `d = "5"` and `s = "-5"`: `"+5"` and `"+-5"` both read as `5`. -/
theorem atoi_plus_not_sign_witness :
    (∀ c ∈ ['5'], isDigitCase c = true) ∧ '\x00' ∉ ['-', '5'] ∧
    atoi (some ('+' :: ['5'])) = atoi (some ['5']) ∧
    atoi (some ('+' :: ['-', '5'])) = wrap32 (1 * (digitsValue ['-', '5'] : Int)) ∧
    atoi (some ['+', '5']) = 5 ∧ atoi (some ['+', '-', '5']) = 5 :=
  ⟨by decide, by decide,
    (atoi_plus_not_sign ['5'] ['-', '5'] (by decide) (by decide)).1,
    (atoi_plus_not_sign ['5'] ['-', '5'] (by decide) (by decide)).2,
    by decide, by decide⟩

/-- C9: `atoi` never mutates its input. For every machine state holding a
terminated sequence `s` at `str`, the call returns, given more fuel than `s`
has characters, and the memory after the call is the memory before it, so
`s` and its terminator are still at `str`. -/
theorem atoi_never_mutates (fuel : Nat) (σ : Machine) (str : Nat) (s : List Char)
    (h : CStrAt σ.mem str s) (hf : s.length < fuel) :
    ∃ r, atoiMem fuel σ str = some r ∧ r.final.mem = σ.mem ∧ CStrAt r.final.mem str s := by
  by_cases hp : str = 0
  · exact ⟨⟨0, [], σ⟩, by simp [atoiMem, hp], rfl, h⟩
  · obtain ⟨r, hr, _, _, hmem⟩ := atoiMem_spec fuel σ str s hp h hf
    exact ⟨r, hr, hmem, by rw [hmem]; exact h⟩

/-- C9 on a memory holding `"-30"` at address `100`. -/
theorem atoi_never_mutates_witness :
    CStrAt (memOf 100 ['-', '3', '0']) 100 ['-', '3', '0'] ∧
    ['-', '3', '0'].length < 4 ∧
    ∃ r, atoiMem 4 ⟨memOf 100 ['-', '3', '0'], []⟩ 100 = some r ∧
      r.final.mem = memOf 100 ['-', '3', '0'] ∧
      CStrAt r.final.mem 100 ['-', '3', '0'] :=
  ⟨by simp [CStrAt, memOf], by decide,
    atoi_never_mutates 4 ⟨memOf 100 ['-', '3', '0'], []⟩ 100 ['-', '3', '0']
      (by simp [CStrAt, memOf]) (by decide)⟩

/-- C10: `atoi` is total. On the null reference it returns at once. On a
terminated sequence `s` of `n` characters at a non-null `str` it returns
within `n + 1` evaluations of the loop condition; the value returned is the
`int` that `atoi s` is; and the addresses of `s` are each visited once, in
order: the leading `'-'`, when there is one, by the sign test, every other
character by one run of the loop body. -/
theorem atoi_total (fuel : Nat) (σ : Machine) (str : Nat) (s : List Char)
    (hp : str ≠ 0) (h : CStrAt σ.mem str s) (hf : s.length < fuel) :
    (∃ r0, atoiMem fuel σ 0 = some r0 ∧ r0.ret = 0) ∧
    ∃ r, atoiMem fuel σ str = some r ∧ r.ret = atoi (some s) ∧
      INT_MIN ≤ r.ret ∧ r.ret ≤ INT_MAX ∧
      (if s.head? = some '-' then [str] else []) ++ r.visited = List.range' str s.length := by
  refine ⟨⟨⟨0, [], σ⟩, by simp [atoiMem], rfl⟩, ?_⟩
  obtain ⟨r, hr, hret, hvis, _⟩ := atoiMem_spec fuel σ str s hp h hf
  have hrange : INT_MIN ≤ atoi (some s) ∧ atoi (some s) ≤ INT_MAX := by
    cases s with
    | nil => exact ⟨by decide, by decide⟩
    | cons c cs =>
      simp only [atoi]
      exact wrap32_range _
  refine ⟨r, hr, hret, by rw [hret]; exact hrange.1, by rw [hret]; exact hrange.2, ?_⟩
  rw [hvis]
  by_cases hm : s.head? = some '-'
  · cases s with
    | nil => simp at hm
    | cons c cs =>
      simp [signWidth, hm, List.range'_succ]
  · simp [signWidth, hm]

/-- C10 on a memory holding `"-30"` at address `100`, with fuel `4`. -/
theorem atoi_total_witness :
    (100 : Nat) ≠ 0 ∧ CStrAt (memOf 100 ['-', '3', '0']) 100 ['-', '3', '0'] ∧
    ['-', '3', '0'].length < 4 ∧
    (∃ r0, atoiMem 4 ⟨memOf 100 ['-', '3', '0'], []⟩ 0 = some r0 ∧ r0.ret = 0) ∧
    ∃ r, atoiMem 4 ⟨memOf 100 ['-', '3', '0'], []⟩ 100 = some r ∧
      r.ret = atoi (some ['-', '3', '0']) ∧ INT_MIN ≤ r.ret ∧ r.ret ≤ INT_MAX ∧
      (if ['-', '3', '0'].head? = some '-' then [100] else []) ++ r.visited =
        List.range' 100 ['-', '3', '0'].length :=
  ⟨by decide, by simp [CStrAt, memOf], by decide,
    atoi_total 4 ⟨memOf 100 ['-', '3', '0'], []⟩ 100 ['-', '3', '0'] (by decide)
      (by simp [CStrAt, memOf]) (by decide)⟩

/-! ## Further facts used by the later claims -/

theorem wrap32_add_wrap32 (x y : Int) : wrap32 (x + wrap32 y) = wrap32 (x + y) := by
  unfold wrap32
  omega

/-- The loop over `a ++ b` is the loop over `b` started where the loop over
`a` ended, when `a` holds no terminator. -/
theorem atoiLoop_append (a b : List Char) (v : Int) (ha : '\x00' ∉ a) :
    atoiLoop (a ++ b) v = atoiLoop b (atoiLoop a v) := by
  induction a generalizing v with
  | nil => rfl
  | cons c cs ih =>
    have h0 : c ≠ '\x00' := fun h => ha (h ▸ List.mem_cons_self c cs)
    have hcs : '\x00' ∉ cs := fun h => ha (List.mem_cons_of_mem c h)
    by_cases hd : isDigitCase c = true
    · rw [List.cons_append, atoiLoop_cons_digit c _ v hd, atoiLoop_cons_digit c cs v hd]
      exact ih _ hcs
    · have hd2 : isDigitCase c = false := by simpa using hd
      rw [List.cons_append, atoiLoop_cons_skip c _ v h0 hd2, atoiLoop_cons_skip c cs v h0 hd2]
      exact ih v hcs

/-- The loop over `a ++ b` shifts what `a` accumulated by the digits of `b`
and adds what `b` accumulates on its own. -/
theorem atoiLoop_append_value (a b : List Char) (v : Int) (ha : '\x00' ∉ a) (hb : '\x00' ∉ b)
    (hlo : INT_MIN ≤ v) (hhi : v ≤ INT_MAX) :
    atoiLoop (a ++ b) v =
      wrap32 (atoiLoop a v * 10 ^ (digitsOf b).length + atoiLoop b 0) := by
  have hr := atoiLoop_range a v hlo hhi
  have hw : atoiLoop a v = wrap32 (atoiLoop a v) := (wrap32_of_range _ hr.1 hr.2).symm
  rw [atoiLoop_append a b v ha, atoiLoop_zero b hb, wrap32_add_wrap32]
  conv_lhs => rw [hw]
  exact atoiLoop_value b hb (atoiLoop a v)

theorem digitsOf_length_all_digits (s : List Char) (h : ∀ c ∈ s, isDigitCase c = true) :
    (digitsOf s).length = s.length := by
  unfold digitsOf
  rw [List.length_map, List.filter_eq_self.2 h]

/-- On digits only, while the number spelled so far fits in `int`, no step of
the loop leaves the range of `int` and the accumulator is exact. -/
theorem atoiLoopOps_exact (ds : List Char) (hall : ∀ c ∈ ds, isDigitCase c = true) :
    ∀ n : Nat, n * 10 ^ (digitsOf ds).length + digitsValue ds ≤ 2147483647 →
      (∀ x ∈ atoiLoopOps ds (n : Int), INT_MIN ≤ x ∧ x ≤ INT_MAX) ∧
      atoiLoop ds (n : Int) = ((n * 10 ^ (digitsOf ds).length + digitsValue ds : Nat) : Int) := by
  induction ds with
  | nil =>
    intro n _
    refine ⟨fun x hx => ?_, ?_⟩
    · simp [atoiLoopOps] at hx
    · simp [atoiLoop, digitsOf, digitsValue]
  | cons c cs ih =>
    intro n hn
    have hd : isDigitCase c = true := hall c (List.mem_cons_self c cs)
    have hcs : ∀ d ∈ cs, isDigitCase d = true := fun d hd => hall d (List.mem_cons_of_mem c hd)
    have h0 : c ≠ '\x00' := ne_nul_of_isDigitCase c hd
    rw [digitsValue_cons_digit c cs hd, digitsOf_cons_digit c cs hd, List.length_cons] at hn ⊢
    have hpow : 1 ≤ 10 ^ (digitsOf cs).length := Nat.one_le_pow _ _ (by decide)
    have hsame : n * 10 ^ ((digitsOf cs).length + 1) +
        ((c.toNat - 48) * 10 ^ (digitsOf cs).length + digitsValue cs) =
        (n * 10 + (c.toNat - 48)) * 10 ^ (digitsOf cs).length + digitsValue cs := by
      ring
    rw [hsame] at hn ⊢
    have hle : n * 10 + (c.toNat - 48) ≤ 2147483647 := by
      have h1 : n * 10 + (c.toNat - 48) ≤
          (n * 10 + (c.toNat - 48)) * 10 ^ (digitsOf cs).length :=
        Nat.le_mul_of_pos_right _ hpow
      omega
    have hacc : accumulate (n : Int) c = ((n * 10 + (c.toNat - 48) : Nat) : Int) := by
      unfold accumulate
      rw [digitOf_eq c hd]
      unfold wrap32
      push_cast
      omega
    obtain ⟨ihops, ihval⟩ := ih hcs (n * 10 + (c.toNat - 48)) hn
    refine ⟨fun x hx => ?_, ?_⟩
    · simp only [atoiLoopOps, h0, hd, if_true, if_false, List.mem_cons] at hx
      rcases hx with hx | hx | hx
      · subst hx
        unfold INT_MIN INT_MAX
        omega
      · rw [hx, digitOf_eq c hd]
        have hw : wrap32 ((n : Int) * 10) = (n : Int) * 10 := by
          unfold wrap32
          omega
        rw [hw]
        unfold INT_MIN INT_MAX
        omega
      · rw [hacc] at hx
        exact ihops x hx
    · rw [atoiLoop_cons_digit c cs _ hd, hacc]
      exact ihval

/-! ## `strcpy` copies a terminated sequence -/

theorem store_mem (σ : Machine) (p : Nat) (c : Char) (a : Nat) :
    (store σ p c).mem a = if a = p then c else σ.mem a := rfl

/-- Whether `m` holds `s` at `p` depends only on the addresses `p` to
`p + s.length`. -/
theorem CStrAt_congr (m1 m2 : Nat → Char) (s : List Char) :
    ∀ p : Nat, (∀ a, p ≤ a → a ≤ p + s.length → m2 a = m1 a) → CStrAt m1 p s →
      CStrAt m2 p s := by
  induction s with
  | nil =>
    intro p h hs
    have e : m2 p = m1 p := h p (Nat.le_refl p) (by simp)
    have h1 : m1 p = '\x00' := hs
    show m2 p = '\x00'
    rw [e, h1]
  | cons c cs ih =>
    intro p h hs
    obtain ⟨hc, hm, hrest⟩ := hs
    refine ⟨hc, ?_, ?_⟩
    · rw [h p (Nat.le_refl p) (by simp), hm]
    · refine ih (p + 1) (fun a ha1 ha2 => h a (by omega) ?_) hrest
      simp only [List.length_cons]
      omega

theorem CStrAt_terminator (m : Nat → Char) (s : List Char) :
    ∀ p : Nat, CStrAt m p s → m (p + s.length) = '\x00' := by
  induction s with
  | nil =>
    intro p h
    exact h
  | cons c cs ih =>
    intro p h
    have := ih (p + 1) h.2.2
    simpa [Nat.add_assoc, Nat.add_comm 1] using this

/-- With the source sequence `s` at `src`, a destination that does not start
inside the part of the source still to be read, and more fuel than `s` has
characters, the copy loop ends; the destination then holds `s` and its
terminator, and no address outside `dst` to `dst + s.length` has changed. -/
theorem strcpyLoop_spec (s : List Char) :
    ∀ (fuel : Nat) (σ : Machine) (dst src : Nat),
      CStrAt σ.mem src s → (dst ≤ src ∨ src + s.length < dst) → s.length < fuel →
      ∃ σ1, strcpyLoop fuel σ dst src = some σ1 ∧ CStrAt σ1.mem dst s ∧
        ∀ a, (a < dst ∨ dst + s.length < a) → σ1.mem a = σ.mem a := by
  induction s with
  | nil =>
    intro fuel σ dst src h _ hf
    cases fuel with
    | zero => exact absurd hf (Nat.not_lt_zero _)
    | succ f =>
      have h0 : σ.mem src = '\x00' := h
      refine ⟨store (load σ src).2 dst (load σ src).1, by simp [strcpyLoop, load_fst, h0],
        ?_, ?_⟩
      · show (store (load σ src).2 dst (load σ src).1).mem dst = '\x00'
        rw [store_mem, load_fst, h0]
        simp
      · intro a ha
        rw [store_mem, load_mem]
        have hne : a ≠ dst := by
          simp only [List.length_nil] at ha
          omega
        simp [hne]
  | cons c cs ih =>
    intro fuel σ dst src h hd hf
    obtain ⟨hc, hm, hrest⟩ := h
    simp only [List.length_cons] at hd hf
    cases fuel with
    | zero => exact absurd hf (Nat.not_lt_zero _)
    | succ f =>
      have hrest1 : CStrAt (store (load σ src).2 dst (load σ src).1).mem (src + 1) cs := by
        refine CStrAt_congr σ.mem _ cs (src + 1) (fun a ha1 ha2 => ?_) hrest
        rw [store_mem, load_mem]
        have hne : a ≠ dst := by omega
        simp [hne]
      obtain ⟨σ1, hr, hcopy, hframe⟩ :=
        ih f (store (load σ src).2 dst (load σ src).1) (dst + 1) (src + 1) hrest1
          (by omega) (by omega)
      refine ⟨σ1, ?_, ⟨hc, ?_, hcopy⟩, ?_⟩
      · rw [← hr]
        simp [strcpyLoop, load_fst, hm, hc]
      · rw [hframe dst (Or.inl (Nat.lt_succ_self dst)), store_mem, load_fst, hm]
        simp
      · intro a ha
        simp only [List.length_cons] at ha
        rw [hframe a (by omega), store_mem, load_mem]
        have hne : a ≠ dst := by omega
        simp [hne]

/-- Whatever `strcpy` returns, the pointer it returns is `dst`. -/
theorem strcpy_fst (fuel : Nat) (σ : Machine) (dst src : Nat) (r : Nat × Machine)
    (h : strcpy fuel σ dst src = some r) : r.1 = dst := by
  unfold strcpy at h
  cases hl : strcpyLoop fuel σ dst src with
  | none => simp [hl] at h
  | some σ1 =>
    simp [hl] at h
    rw [← h]

/-- The contract of `strcpy` on a source sequence `s` at `src`. -/
theorem strcpy_spec (fuel : Nat) (σ : Machine) (dst src : Nat) (s : List Char)
    (h : CStrAt σ.mem src s) (hd : dst ≤ src ∨ src + s.length < dst) (hf : s.length < fuel) :
    ∃ σ1, strcpy fuel σ dst src = some (dst, σ1) ∧ CStrAt σ1.mem dst s ∧
      ∀ a, (a < dst ∨ dst + s.length < a) → σ1.mem a = σ.mem a := by
  obtain ⟨σ1, hr, hcopy, hframe⟩ := strcpyLoop_spec s fuel σ dst src h hd hf
  exact ⟨σ1, by simp [strcpy, hr], hcopy, hframe⟩

/-! ## The self-test of `strcpy` -/

theorem storeList_mem_lt (l : List Char) :
    ∀ (σ : Machine) (p a : Nat), a < p → (storeList σ p l).mem a = σ.mem a := by
  induction l with
  | nil =>
    intro σ p a _
    rfl
  | cons c cs ih =>
    intro σ p a ha
    show (storeList (store σ p c) (p + 1) cs).mem a = σ.mem a
    rw [ih (store σ p c) (p + 1) a (by omega), store_mem]
    have hne : a ≠ p := by omega
    simp [hne]

theorem storeList_mem_at (l : List Char) :
    ∀ (σ : Machine) (p k : Nat), k < l.length →
      (storeList σ p l).mem (p + k) = l.getD k '\x00' := by
  induction l with
  | nil =>
    intro σ p k hk
    exact absurd hk (Nat.not_lt_zero _)
  | cons c cs ih =>
    intro σ p k hk
    cases k with
    | zero =>
      show (storeList (store σ p c) (p + 1) cs).mem (p + 0) = c
      rw [storeList_mem_lt cs (store σ p c) (p + 1) (p + 0) (by omega), store_mem]
      simp
    | succ j =>
      have hj : j < cs.length := by
        simp only [List.length_cons] at hk
        omega
      show (storeList (store σ p c) (p + 1) cs).mem (p + (j + 1)) = (c :: cs).getD (j + 1) '\x00'
      have e : p + (j + 1) = p + 1 + j := by omega
      rw [e, ih (store σ p c) (p + 1) j hj]
      simp

/-- A terminated sequence found at offset `off` of the bytes `l` is held at
`base + off` once `l` is written at `base`. -/
theorem CStrAt_storeList (σ : Machine) (base : Nat) (l : List Char) (s : List Char) :
    ∀ off : Nat, '\x00' ∉ s → off + s.length < l.length →
      (∀ j, j ≤ s.length → l.getD (off + j) '\x00' = (s ++ ['\x00']).getD j '\x00') →
      CStrAt (storeList σ base l).mem (base + off) s := by
  induction s with
  | nil =>
    intro off _ hfit hmatch
    show (storeList σ base l).mem (base + off) = '\x00'
    rw [storeList_mem_at l σ base off (by simpa using hfit)]
    simpa using hmatch 0 (Nat.le_refl 0)
  | cons c cs ih =>
    intro off hs hfit hmatch
    simp only [List.length_cons] at hfit
    have hc : c ≠ '\x00' := fun h => hs (h ▸ List.mem_cons_self c cs)
    have hcs : '\x00' ∉ cs := fun h => hs (List.mem_cons_of_mem c h)
    refine ⟨hc, ?_, ?_⟩
    · rw [storeList_mem_at l σ base off (by omega)]
      simpa using hmatch 0 (Nat.zero_le _)
    · have e : base + off + 1 = base + (off + 1) := by omega
      rw [e]
      refine ih (off + 1) hcs (by omega) (fun j hj => ?_)
      have := hmatch (j + 1) (by simp only [List.length_cons]; omega)
      have e2 : off + 1 + j = off + (j + 1) := by omega
      rw [e2, this]
      simp

/-- On two copies of the same terminated sequence the comparison loop stops
at the terminator. -/
theorem compareLoop_spec (m : Nat → Char) (inp out : Nat) (t : List Char) :
    ∀ (fuel j : Nat), CStrAt m (inp + j) t → CStrAt m (out + j) t → t.length < fuel →
      compareLoop fuel m inp out j = some (j + t.length) := by
  induction t with
  | nil =>
    intro fuel j hin _ hf
    cases fuel with
    | zero => exact absurd hf (Nat.not_lt_zero _)
    | succ f =>
      have h0 : m (inp + j) = '\x00' := hin
      simp [compareLoop, h0]
  | cons c cs ih =>
    intro fuel j hin hout hf
    simp only [List.length_cons] at hf
    cases fuel with
    | zero => exact absurd hf (Nat.not_lt_zero _)
    | succ f =>
      obtain ⟨hc, hmi, hri⟩ := hin
      obtain ⟨_, hmo, hro⟩ := hout
      have e := ih f (j + 1) (by simpa [Nat.add_assoc] using hri)
        (by simpa [Nat.add_assoc] using hro) (by omega)
      simp only [compareLoop, hmi, hmo, ne_eq, hc, not_false_eq_true, and_self, if_true]
      rw [e]
      simp only [List.length_cons]
      congr 1
      omega

/-- The loop of `test_strcpy` succeeds on any indices whose `test_str_in`
holds a terminated sequence shorter than sixteen characters and than the
fuel. -/
theorem test_strcpy_from_pass (fuel base : Nat) (is : List Nat) :
    ∀ σ : Machine,
      (∀ i ∈ is, ∃ s : List Char, s.length < 16 ∧ s.length < fuel ∧
        CStrAt σ.mem (base + 32 * i) s) →
      test_strcpy_from fuel base is σ = some 1 := by
  induction is with
  | nil =>
    intro σ _
    rfl
  | cons i rest ih =>
    intro σ h
    obtain ⟨s, hlen, hfuel, hin⟩ := h i (List.mem_cons_self i rest)
    obtain ⟨σ1, hr, hcopy, hframe⟩ :=
      strcpy_spec fuel σ (base + 32 * i + 16) (base + 32 * i) s hin (Or.inr (by omega)) hfuel
    have hin1 : CStrAt σ1.mem (base + 32 * i) s :=
      CStrAt_congr σ.mem σ1.mem s _ (fun a _ ha2 => hframe a (Or.inl (by omega))) hin
    have hcmp : compareLoop fuel σ1.mem (base + 32 * i) (base + 32 * i + 16) 0 = some s.length := by
      have := compareLoop_spec σ1.mem (base + 32 * i) (base + 32 * i + 16) s fuel 0
        hin1 hcopy hfuel
      simpa using this
    have hterm : σ1.mem (base + 32 * i + 16 + s.length) = '\x00' :=
      CStrAt_terminator σ1.mem s _ hcopy
    have hnext : test_strcpy_from fuel base rest σ1 = some 1 := by
      refine ih σ1 (fun k hk => ?_)
      obtain ⟨t, htlen, htfuel, htin⟩ := h k (List.mem_cons_of_mem i hk)
      refine ⟨t, htlen, htfuel, ?_⟩
      refine CStrAt_congr σ.mem σ1.mem t _ (fun a ha1 ha2 => hframe a ?_) htin
      omega
    simp [test_strcpy_from, hr, hcmp, hterm, hnext]

set_option maxRecDepth 100000 in
/-- The function `test_strcpy` returns `1` from any state and for any
placement of its array, given fuel for four characters. -/
theorem test_strcpy_pass (fuel : Nat) (σ : Machine) (base : Nat) (hf : 4 ≤ fuel) :
    test_strcpy fuel σ base = some 1 := by
  have hrange : List.range (ARRAY_SIZE (4 * 32) 32) = [0, 1, 2, 3] := by decide
  unfold test_strcpy
  rw [hrange]
  refine test_strcpy_from_pass fuel base [0, 1, 2, 3] _ (fun i hi => ?_)
  have hi2 : i = 0 ∨ i = 1 ∨ i = 2 ∨ i = 3 := by simpa using hi
  rcases hi2 with h | h | h | h <;> subst h
  · exact ⟨[], by decide, by simp; omega,
      CStrAt_storeList σ base test_strcpy_image [] (32 * 0) (by decide) (by decide) (by decide)⟩
  · exact ⟨['1', '2', '3'], by decide, by simp; omega,
      CStrAt_storeList σ base test_strcpy_image ['1', '2', '3'] (32 * 1) (by decide)
        (by decide) (by decide)⟩
  · exact ⟨[], by decide, by simp; omega,
      CStrAt_storeList σ base test_strcpy_image [] (32 * 2) (by decide) (by decide) (by decide)⟩
  · exact ⟨['1', '2', '3'], by decide, by simp; omega,
      CStrAt_storeList σ base test_strcpy_image ['1', '2', '3'] (32 * 3) (by decide)
        (by decide) (by decide)⟩

/-! ## The runner prints one line per test -/

theorem reportLine_eq (ret : Int) (desc : String) :
    reportLine ret desc = label ret ++ ": " ++ desc ++ "\n" := by
  unfold reportLine label
  split <;> [rfl; (split <;> rfl)]

/-- The loop of `main` appends the expected line of each test, in order, to
what was printed before. -/
theorem mainLoop_report (fuel : Nat) (σ : Machine) (base : Nat) (registry : List test)
    (results : List (Int × String))
    (h : List.Forall₂
      (fun t p => t.test_func fuel σ base = some p.1 ∧ t.test_desc = p.2) registry results) :
    ∀ out : String, mainLoop fuel σ base registry out = some (out ++ report results) := by
  induction h with
  | nil =>
    intro out
    simp [mainLoop, report]
  | cons hhead _ ih =>
    intro out
    obtain ⟨hf, hd⟩ := hhead
    simp only [mainLoop, hf, hd, report]
    rw [ih, reportLine_eq]
    simp [String.append_assoc]

/-! ## The claims, continued -/

/-- C11: `atoi` has no hidden state. Two calls on the same sequence `s`,
from any two machine states, at any two non-null addresses holding `s`,
return the same integer, which is `atoi s`; so does a second call made
from the state the first one left; two calls on the null reference both
return `0`. -/
theorem atoi_pure (f1 f2 : Nat) (σ1 σ2 : Machine) (p1 p2 : Nat) (s : List Char)
    (hp1 : p1 ≠ 0) (hp2 : p2 ≠ 0) (h1 : CStrAt σ1.mem p1 s) (h2 : CStrAt σ2.mem p2 s)
    (hf1 : s.length < f1) (hf2 : s.length < f2) :
    (∃ r1 r2 r3, atoiMem f1 σ1 p1 = some r1 ∧ atoiMem f2 σ2 p2 = some r2 ∧
      atoiMem f2 r1.final p1 = some r3 ∧
      r1.ret = r2.ret ∧ r3.ret = r1.ret ∧ r1.ret = atoi (some s)) ∧
    (∃ n1 n2, atoiMem f1 σ1 0 = some n1 ∧ atoiMem f2 σ2 0 = some n2 ∧ n1.ret = n2.ret) := by
  obtain ⟨r1, e1, v1, _, m1⟩ := atoiMem_spec f1 σ1 p1 s hp1 h1 hf1
  obtain ⟨r2, e2, v2, _, _⟩ := atoiMem_spec f2 σ2 p2 s hp2 h2 hf2
  obtain ⟨r3, e3, v3, _, _⟩ := atoiMem_spec f2 r1.final p1 s hp1 (by rw [m1]; exact h1) hf2
  refine ⟨⟨r1, r2, r3, e1, e2, e3, by rw [v1, v2], by rw [v3, v1], v1⟩, ?_⟩
  exact ⟨⟨0, [], σ1⟩, ⟨0, [], σ2⟩, by simp [atoiMem], by simp [atoiMem], rfl⟩

/-- C11 on `"-30"` stored at address `100` of one memory and at address `7`
of another, the second with reads already logged. -/
theorem atoi_pure_witness :
    (100 : Nat) ≠ 0 ∧ (7 : Nat) ≠ 0 ∧
    CStrAt (memOf 100 ['-', '3', '0']) 100 ['-', '3', '0'] ∧
    CStrAt (memOf 7 ['-', '3', '0']) 7 ['-', '3', '0'] ∧
    ['-', '3', '0'].length < 4 ∧ ['-', '3', '0'].length < 9 ∧
    ((∃ r1 r2 r3, atoiMem 4 ⟨memOf 100 ['-', '3', '0'], []⟩ 100 = some r1 ∧
      atoiMem 9 ⟨memOf 7 ['-', '3', '0'], [5, 6]⟩ 7 = some r2 ∧
      atoiMem 9 r1.final 100 = some r3 ∧
      r1.ret = r2.ret ∧ r3.ret = r1.ret ∧ r1.ret = atoi (some ['-', '3', '0'])) ∧
    (∃ n1 n2, atoiMem 4 ⟨memOf 100 ['-', '3', '0'], []⟩ 0 = some n1 ∧
      atoiMem 9 ⟨memOf 7 ['-', '3', '0'], [5, 6]⟩ 0 = some n2 ∧ n1.ret = n2.ret)) :=
  ⟨by decide, by decide, by simp [CStrAt, memOf], by simp [CStrAt, memOf], by decide, by decide,
    atoi_pure 4 9 ⟨memOf 100 ['-', '3', '0'], []⟩ ⟨memOf 7 ['-', '3', '0'], [5, 6]⟩ 100 7
      ['-', '3', '0'] (by decide) (by decide) (by simp [CStrAt, memOf])
      (by simp [CStrAt, memOf]) (by decide) (by decide)⟩

/-- C14: for an array of `n` elements of `e` bytes each, `e` at least `1`,
`ARRAY_SIZE` computes `n` from the `n * e` bytes of the array and the `e`
bytes of an element. -/
theorem ARRAY_SIZE_count (n e : Nat) (he : 1 ≤ e) : ARRAY_SIZE (n * e) e = n := by
  unfold ARRAY_SIZE
  exact Nat.mul_div_cancel n he

/-- C14 at the arrays of `test_array_size`: three `int`s, and no element. -/
theorem ARRAY_SIZE_count_witness :
    1 ≤ sizeofInt ∧ ARRAY_SIZE (3 * sizeofInt) sizeofInt = 3 ∧
    ARRAY_SIZE (0 * sizeofInt) sizeofInt = 0 :=
  ⟨by decide, ARRAY_SIZE_count 3 sizeofInt (by decide), ARRAY_SIZE_count 0 sizeofInt (by decide)⟩

/-- C17: on an optional leading `'-'` followed only by digits, with denoted
value `v` such that `-INT_MAX ≤ v ≤ INT_MAX`, every arithmetic result of the
call (each `val * 10`, each `val + digit`, the final `neg * val`) lies in
`[INT_MIN, INT_MAX]`; whereas on `"-2147483648"`, which denotes `INT_MIN`, the
accumulator update on the last digit yields `2147483648`, above `INT_MAX`. -/
theorem atoi_no_overflow_in_range (s : List Char) (hs : isSignedDecimal s = true)
    (hlo : -INT_MAX ≤ signedValue s) (hhi : signedValue s ≤ INT_MAX) :
    (∀ x ∈ atoiOps s, INT_MIN ≤ x ∧ x ≤ INT_MAX) ∧
    (isSignedDecimal "-2147483648".toList = true ∧
      signedValue "-2147483648".toList = INT_MIN ∧
      (atoiLoopOps "2147483648".toList 0).getLast? = some 2147483648 ∧
      (2147483648 : Int) ∈ atoiOps "-2147483648".toList ∧
      INT_MAX < 2147483648) := by
  constructor
  · by_cases h : s.head? = some '-'
    · cases s with
      | nil => simp at h
      | cons c cs =>
        have hc : c = '-' := by simpa using h
        subst hc
        have hall : ∀ d ∈ cs, isDigitCase d = true := by
          simpa [isSignedDecimal] using hs
        have hv : signedValue ('-' :: cs) = -(digitsValue cs : Int) := by
          simp [signedValue]
        rw [hv] at hlo hhi
        have hn : 0 * 10 ^ (digitsOf cs).length + digitsValue cs ≤ 2147483647 := by
          unfold INT_MAX at hlo
          omega
        obtain ⟨hops, hval⟩ := atoiLoopOps_exact cs hall 0 hn
        have hops2 : ∀ x ∈ atoiLoopOps cs 0, INT_MIN ≤ x ∧ x ≤ INT_MAX := by
          simpa using hops
        have hval2 : atoiLoop cs 0 = (digitsValue cs : Int) := by
          simpa using hval
        intro x hx
        have hx2 : x ∈ atoiLoopOps cs 0 ∨ x = -1 * atoiLoop cs 0 := by
          simpa [atoiOps, deref] using hx
        rcases hx2 with hx2 | hx2
        · exact hops2 x hx2
        · rw [hx2, hval2]
          unfold INT_MIN INT_MAX
          omega
    · have hall : ∀ d ∈ s, isDigitCase d = true := by
        simpa [isSignedDecimal, h] using hs
      have hv : signedValue s = (digitsValue s : Int) := by
        simp [signedValue, h]
      rw [hv] at hlo hhi
      have hn : 0 * 10 ^ (digitsOf s).length + digitsValue s ≤ 2147483647 := by
        unfold INT_MAX at hhi
        omega
      obtain ⟨hops, hval⟩ := atoiLoopOps_exact s hall 0 hn
      have hops2 : ∀ x ∈ atoiLoopOps s 0, INT_MIN ≤ x ∧ x ≤ INT_MAX := by
        simpa using hops
      have hval2 : atoiLoop s 0 = (digitsValue s : Int) := by
        simpa using hval
      have hd : deref s ≠ '-' := deref_ne_minus_of_all_digits s hall
      intro x hx
      have hx2 : x ∈ atoiLoopOps s 0 ∨ x = 1 * atoiLoop s 0 := by
        simpa [atoiOps, hd] using hx
      rcases hx2 with hx2 | hx2
      · exact hops2 x hx2
      · rw [hx2, hval2]
        unfold INT_MIN INT_MAX
        omega
  · set_option maxRecDepth 100000 in
    decide

set_option maxRecDepth 100000 in
/-- C17 at `"-2147483647"`, the least value the bound admits, whose steps are
listed in full. -/
theorem atoi_no_overflow_in_range_witness :
    isSignedDecimal "-2147483647".toList = true ∧
    -INT_MAX ≤ signedValue "-2147483647".toList ∧
    signedValue "-2147483647".toList ≤ INT_MAX ∧
    (∀ x ∈ atoiOps "-2147483647".toList, INT_MIN ≤ x ∧ x ≤ INT_MAX) ∧
    atoiOps "-30".toList = [0, 3, 30, 30, -30] :=
  ⟨by decide, by decide, by decide,
    (atoi_no_overflow_in_range "-2147483647".toList (by decide) (by decide) (by decide)).1,
    by decide⟩

/-- C18: `atoi` is positional over concatenation. For terminated sequences
`a` and `b`, with `b` either scanned after a non-empty `a` or not starting
with `'-'`, the magnitude accumulated for `a ++ b` is the magnitude of `a`
times `10 ^ k` plus what the loop accumulates on `b`, in wraparound `int`
arithmetic, `k` being the number of digit characters of `b`; and for `a` and
`b` of digits only, `atoi (a ++ b)` is `atoi a * 10 ^ len b + atoi b` modulo
`2^32`. -/
theorem atoi_positional (a b : List Char) (ha : '\x00' ∉ a) (hb : '\x00' ∉ b)
    (hsign : a ≠ [] ∨ b.head? ≠ some '-') :
    atoiVal (a ++ b) = wrap32 (atoiVal a * 10 ^ (digitsOf b).length + atoiLoop b 0) ∧
    ((∀ c ∈ a, isDigitCase c = true) → (∀ c ∈ b, isDigitCase c = true) →
      atoi (some (a ++ b)) = wrap32 (atoi (some a) * 10 ^ b.length + atoi (some b))) := by
  have h0lo : INT_MIN ≤ (0 : Int) := by decide
  have h0hi : (0 : Int) ≤ INT_MAX := by decide
  constructor
  · cases a with
    | nil =>
      have hbs : b.head? ≠ some '-' := by
        rcases hsign with h | h
        · exact absurd rfl h
        · exact h
      have hd : deref b ≠ '-' := fun hh => hbs ((deref_eq_minus_iff b).1 hh)
      have e1 : atoiVal ([] ++ b) = atoiLoop ([] ++ b) 0 := by
        simp [atoiVal, hd]
      have e2 : atoiVal [] = atoiLoop [] 0 := rfl
      rw [e1, e2]
      exact atoiLoop_append_value [] b 0 ha hb h0lo h0hi
    | cons x xs =>
      by_cases hx : x = '-'
      · subst hx
        have hxs : '\x00' ∉ xs := fun hh => ha (List.mem_cons_of_mem _ hh)
        have e1 : atoiVal ('-' :: xs ++ b) = atoiLoop (xs ++ b) 0 := by
          simp [atoiVal, deref]
        have e2 : atoiVal ('-' :: xs) = atoiLoop xs 0 := by
          simp [atoiVal, deref]
        rw [e1, e2]
        exact atoiLoop_append_value xs b 0 hxs hb h0lo h0hi
      · have e1 : atoiVal (x :: xs ++ b) = atoiLoop (x :: xs ++ b) 0 := by
          simp [atoiVal, deref, hx]
        have e2 : atoiVal (x :: xs) = atoiLoop (x :: xs) 0 := by
          simp [atoiVal, deref, hx]
        rw [e1, e2]
        exact atoiLoop_append_value (x :: xs) b 0 ha hb h0lo h0hi
  · intro hda hdb
    have hdab : ∀ c ∈ a ++ b, isDigitCase c = true := by
      intro c hc
      rcases List.mem_append.1 hc with h | h
      · exact hda c h
      · exact hdb c h
    rw [atoi_no_minus_eq _ (deref_ne_minus_of_all_digits _ hdab),
      atoi_no_minus_eq _ (deref_ne_minus_of_all_digits _ hda),
      atoi_no_minus_eq _ (deref_ne_minus_of_all_digits _ hdb),
      ← digitsOf_length_all_digits b hdb]
    exact atoiLoop_append_value a b 0 ha hb h0lo h0hi

/-- C18 at `a = "-12"` and `b = "a34"`, and at the digits `"12"` and `"34"`. -/
theorem atoi_positional_witness :
    '\x00' ∉ ['-', '1', '2'] ∧ '\x00' ∉ ['a', '3', '4'] ∧
    (['-', '1', '2'] ≠ [] ∨ ['a', '3', '4'].head? ≠ some '-') ∧
    atoiVal (['-', '1', '2'] ++ ['a', '3', '4']) =
      wrap32 (atoiVal ['-', '1', '2'] * 10 ^ (digitsOf ['a', '3', '4']).length +
        atoiLoop ['a', '3', '4'] 0) ∧
    atoiVal ['-', '1', '2', 'a', '3', '4'] = 1234 ∧
    atoi (some (['1', '2'] ++ ['3', '4'])) =
      wrap32 (atoi (some ['1', '2']) * 10 ^ ['3', '4'].length + atoi (some ['3', '4'])) :=
  ⟨by decide, by decide, Or.inl (by decide),
    (atoi_positional ['-', '1', '2'] ['a', '3', '4'] (by decide) (by decide)
      (Or.inl (by decide))).1,
    by decide,
    (atoi_positional ['1', '2'] ['3', '4'] (by decide) (by decide) (Or.inl (by decide))).2
      (by decide) (by decide)⟩

/-- C12: `strcpy` copies the string. For every source sequence `s` of `n`
characters at `src` and every destination of `n + 1` bytes at `dst` that does
not overlap it, whatever the destination held before, the call returns and
the destination then holds the `n` characters of `s` followed by `'\0'` at
index `n`; the source still holds `s`, and no byte outside the destination
has changed. -/
theorem strcpy_copies (fuel : Nat) (σ : Machine) (dst src : Nat) (s : List Char)
    (h : CStrAt σ.mem src s) (hd : dst + s.length < src ∨ src + s.length < dst)
    (hf : s.length < fuel) :
    ∃ r, strcpy fuel σ dst src = some r ∧ CStrAt r.2.mem dst s ∧
      r.2.mem (dst + s.length) = '\x00' ∧ CStrAt r.2.mem src s ∧
      ∀ a, (a < dst ∨ dst + s.length < a) → r.2.mem a = σ.mem a := by
  have hd2 : dst ≤ src ∨ src + s.length < dst := by omega
  obtain ⟨σ1, hr, hcopy, hframe⟩ := strcpy_spec fuel σ dst src s h hd2 hf
  refine ⟨(dst, σ1), hr, hcopy, CStrAt_terminator _ s dst hcopy, ?_, hframe⟩
  exact CStrAt_congr σ.mem σ1.mem s src (fun a ha1 ha2 => hframe a (by omega)) h

/-- C12 on `"123"` at address `100`, copied to address `200` of a memory that
holds `'x'` everywhere else. -/
theorem strcpy_copies_witness :
    CStrAt (fun a => if a = 100 then '1' else if a = 101 then '2' else if a = 102 then '3'
      else if a = 103 then '\x00' else 'x') 100 ['1', '2', '3'] ∧
    ((200 : Nat) + ['1', '2', '3'].length < 100 ∨ 100 + ['1', '2', '3'].length < 200) ∧
    ['1', '2', '3'].length < 4 ∧
    ∃ r, strcpy 4 ⟨fun a => if a = 100 then '1' else if a = 101 then '2'
        else if a = 102 then '3' else if a = 103 then '\x00' else 'x', []⟩ 200 100 = some r ∧
      CStrAt r.2.mem 200 ['1', '2', '3'] ∧ r.2.mem (200 + ['1', '2', '3'].length) = '\x00' ∧
      CStrAt r.2.mem 100 ['1', '2', '3'] ∧
      ∀ a, (a < 200 ∨ 200 + ['1', '2', '3'].length < a) →
        r.2.mem a = (if a = 100 then '1' else if a = 101 then '2' else if a = 102 then '3'
          else if a = 103 then '\x00' else 'x') :=
  ⟨by simp [CStrAt], Or.inr (by decide), by decide,
    strcpy_copies 4 ⟨fun a => if a = 100 then '1' else if a = 101 then '2'
      else if a = 102 then '3' else if a = 103 then '\x00' else 'x', []⟩ 200 100
      ['1', '2', '3'] (by simp [CStrAt]) (Or.inr (by decide)) (by decide)⟩

/-- C13: `strcpy` returns `dst`. Whenever a call returns, from any state and
for any pointers, the pointer returned is the destination it was given; and
on a source sequence `s` at `src`, with `dst` not inside the source after its
first character, the call does return, `dst` and not the position
`dst + s.length + 1` reached after the copied terminator. -/
theorem strcpy_returns_dst (fuel : Nat) (σ : Machine) (dst src : Nat) (s : List Char)
    (h : CStrAt σ.mem src s) (hd : dst ≤ src ∨ src + s.length < dst) (hf : s.length < fuel) :
    (∀ (f : Nat) (τ : Machine) (d p : Nat) (r : Nat × Machine),
      strcpy f τ d p = some r → r.1 = d) ∧
    ∃ r, strcpy fuel σ dst src = some r ∧ r.1 = dst ∧ r.1 ≠ dst + s.length + 1 := by
  refine ⟨fun f τ d p r hr => strcpy_fst f τ d p r hr, ?_⟩
  obtain ⟨σ1, hr, _, _⟩ := strcpy_spec fuel σ dst src s h hd hf
  exact ⟨(dst, σ1), hr, rfl, by show dst ≠ dst + s.length + 1; omega⟩

/-- C13 on `"123"` at address `100` copied to address `200`. -/
theorem strcpy_returns_dst_witness :
    CStrAt (memOf 100 ['1', '2', '3']) 100 ['1', '2', '3'] ∧
    ((200 : Nat) ≤ 100 ∨ 100 + ['1', '2', '3'].length < 200) ∧
    ['1', '2', '3'].length < 4 ∧
    ∃ r, strcpy 4 ⟨memOf 100 ['1', '2', '3'], []⟩ 200 100 = some r ∧ r.1 = 200 ∧
      r.1 ≠ 200 + ['1', '2', '3'].length + 1 :=
  ⟨by simp [CStrAt, memOf], Or.inr (by decide), by decide,
    (strcpy_returns_dst 4 ⟨memOf 100 ['1', '2', '3'], []⟩ 200 100 ['1', '2', '3']
      (by simp [CStrAt, memOf]) (Or.inr (by decide)) (by decide)).2⟩

/-- C15: each of the three self-tests returns `1`: `test_strcpy`, from any
state and wherever its array is placed, given fuel for four characters,
`test_array_size` and `test_atoi`; and `main` then prints `PASSED` for every
registered test. -/
theorem self_tests_pass (fuel : Nat) (σ : Machine) (base : Nat) (hf : 4 ≤ fuel) :
    test_strcpy fuel σ base = some 1 ∧ test_array_size = 1 ∧ test_atoi = 1 ∧
    main fuel σ base =
      some ("PASSED: Test strcpy\nPASSED: Test ARRAY_SIZE\nPASSED: Test atoi\n", 0) := by
  have h1 := test_strcpy_pass fuel σ base hf
  have h2 : test_array_size = 1 := by decide
  have h3 : test_atoi = 1 := by decide
  refine ⟨h1, h2, h3, ?_⟩
  simp only [main, mainWith, tests, mainLoop, h1, h2, h3]
  decide

/-- C15 with fuel `4`, on a memory of `'q'` everywhere, the array of
`test_strcpy` placed at address `1000`. -/
theorem self_tests_pass_witness :
    4 ≤ 4 ∧
    test_strcpy 4 ⟨fun _ => 'q', []⟩ 1000 = some 1 ∧ test_array_size = 1 ∧ test_atoi = 1 ∧
    main 4 ⟨fun _ => 'q', []⟩ 1000 =
      some ("PASSED: Test strcpy\nPASSED: Test ARRAY_SIZE\nPASSED: Test atoi\n", 0) :=
  ⟨by decide, self_tests_pass 4 ⟨fun _ => 'q', []⟩ 1000 (by decide)⟩

/-- C16, as stated, fails: for a test that returns `2` the runner prints the
label `UNEXPE`, not `UNEXPECTED`. -/
theorem main_label_counterexample :
    label 2 = "UNEXPE" ∧ label 2 ≠ "UNEXPECTED" ∧
    mainWith [⟨fun _ _ _ => some 2, "t"⟩] 0 ⟨fun _ => 'q', []⟩ 0 = some ("UNEXPE: t\n", 0) ∧
    mainWith [⟨fun _ _ _ => some 2, "t"⟩] 0 ⟨fun _ => 'q', []⟩ 0 ≠
      some ("UNEXPECTED: t\n", 0) := by
  decide

/-- C16 (amended): for any registry whose tests return, `main` prints one
line per registered test, in registration order, made of a fixed label, the
text `": "`, the name of the test and a newline; the label is `FAILED` for
the return value `0`, `PASSED` for `1` and `UNEXPE` for every other value;
and the exit code is `0`. -/
theorem main_report (fuel : Nat) (σ : Machine) (base : Nat) (registry : List test)
    (results : List (Int × String))
    (h : List.Forall₂
      (fun t p => t.test_func fuel σ base = some p.1 ∧ t.test_desc = p.2) registry results) :
    mainWith registry fuel σ base = some (report results, 0) ∧
    (∀ desc : String, reportLine 0 desc = "FAILED" ++ ": " ++ desc ++ "\n" ∧
      reportLine 1 desc = "PASSED" ++ ": " ++ desc ++ "\n") ∧
    (∀ (ret : Int) (desc : String), ret ≠ 0 → ret ≠ 1 →
      reportLine ret desc = "UNEXPE" ++ ": " ++ desc ++ "\n") := by
  refine ⟨?_, fun desc => ⟨rfl, rfl⟩, fun ret desc h0 h1 => ?_⟩
  · unfold mainWith
    rw [mainLoop_report fuel σ base registry results h ""]
    simp
  · simp [reportLine, h0, h1]

/-- C16 (amended) on a registry of three tests returning `0`, `1` and `7`. -/
theorem main_report_witness :
    List.Forall₂
      (fun (t : test) (p : Int × String) =>
        t.test_func 0 ⟨fun _ => 'q', []⟩ 0 = some p.1 ∧ t.test_desc = p.2)
      [⟨fun _ _ _ => some 0, "a"⟩, ⟨fun _ _ _ => some 1, "b"⟩, ⟨fun _ _ _ => some 7, "c"⟩]
      [(0, "a"), (1, "b"), (7, "c")] ∧
    mainWith
      [⟨fun _ _ _ => some 0, "a"⟩, ⟨fun _ _ _ => some 1, "b"⟩, ⟨fun _ _ _ => some 7, "c"⟩]
      0 ⟨fun _ => 'q', []⟩ 0 = some (report [(0, "a"), (1, "b"), (7, "c")], 0) ∧
    report [(0, "a"), (1, "b"), (7, "c")] = "FAILED: a\nPASSED: b\nUNEXPE: c\n" :=
  ⟨List.Forall₂.cons ⟨rfl, rfl⟩
      (List.Forall₂.cons ⟨rfl, rfl⟩ (List.Forall₂.cons ⟨rfl, rfl⟩ List.Forall₂.nil)),
    (main_report 0 ⟨fun _ => 'q', []⟩ 0
      [⟨fun _ _ _ => some 0, "a"⟩, ⟨fun _ _ _ => some 1, "b"⟩, ⟨fun _ _ _ => some 7, "c"⟩]
      [(0, "a"), (1, "b"), (7, "c")]
      (List.Forall₂.cons ⟨rfl, rfl⟩
        (List.Forall₂.cons ⟨rfl, rfl⟩ (List.Forall₂.cons ⟨rfl, rfl⟩ List.Forall₂.nil)))).1,
    by decide⟩

end Interview
